import Mathlib

/-!
Verification of the dbbench wrapper (`dbbench.py`).

The file embeds, in Lean, the pure fragments of the source:
unit formatting (`humanize_us`, `humanize_count`), the query-statistic
record and its CSV-row constructor (`QueryStatistic`), the connection
descriptor (`DatabaseSpec`), the driver invocation (`RunDbbench`, with the
external process's observable behaviour passed in as data), and the query
text normalizer (`CleanQuery`).

Python numbers are modelled as `Int`.  The float scale constants of
the formatting helpers (`3600e6`, `2.0 ** 30`, ...) are all exactly
representable in binary floating point and comparisons of a Python int
against a float are exact, so the scale-selection logic is embedded
exactly; the `'%.3f'` rendering of the quotient `value / scale` is
modelled by exact arithmetic on the pair `(value, scale)`, with
round-half-to-even ties as in IEEE formatting.
-/

deriving instance DecidableEq for Except

namespace Dbbench

/-! ### Unit formatting (`humanize_us`, `humanize_count`) -/

/-- Round the exact rational `(v * 1000) / s` (with `s > 0`) to the nearest
integer, ties to even (the rounding used by `'%.3f'` formatting). -/
def roundMilli (v s : ℤ) : ℤ :=
  let a := v * 1000
  let q := a / s
  let r := a % s
  if 2 * r < s then q
  else if s < 2 * r then q + 1
  else if q % 2 = 0 then q else q + 1

/-- Left-pad the (three-digit) fractional part with zeros. -/
def pad3 (n : ℤ) : String :=
  let m := n.toNat
  if m < 10 then "00" ++ toString m
  else if m < 100 then "0" ++ toString m
  else toString m

/-- Rendering `'%.3f' % (v / s)`: render the (non-negative) exact quotient `v / s`
with three decimals. -/
def fmt3 (v s : ℤ) : String :=
  let n := roundMilli v s
  toString (n / 1000) ++ "." ++ pad3 (n % 1000)

/-- One `(fmt, scale)` table entry of the Python code: either a
`'%.3f<suffix>'` format or a `'%d<suffix>'` format. -/
inductive NumFmt where
  | dec3 (suffix : String)
  | intFmt (suffix : String)
deriving DecidableEq

/-- Apply a format string to `value / scale` as the Python `%` operator
does.  The `intFmt` case is only ever used with `scale = 1` in the source
tables, where Python's `value / 1` followed by `'%d'` yields `value`. -/
def applyFmt (f : NumFmt) (v : ℤ) (scale : ℤ) : String :=
  match f with
  | .dec3 suffix => fmt3 v scale ++ suffix
  | .intFmt suffix => toString (v / scale) ++ suffix

/-- The `for (fmt, scale) in [...]: if value >= scale: return fmt % (value/scale)`
loop shared by both helpers; `dflt` is the fall-through return value. -/
def humanizeLoop (v : ℤ) (dflt : String) : List (NumFmt × ℤ) → String
  | [] => dflt
  | (f, s) :: rest => if s ≤ v then applyFmt f v s else humanizeLoop v dflt rest

/-- The `(fmt, scale)` table of `humanize_us`:
`[('%.3fh', 60*60*1000000.0), ('%.3fm', 60*1000000.0), ('%.3fs', 1000000.0),
('%.3fms', 1000.0), ('%dus', 1)]`. -/
def usTable : List (NumFmt × ℤ) :=
  [(.dec3 "h", 3600000000), (.dec3 "m", 60000000), (.dec3 "s", 1000000),
   (.dec3 "ms", 1000), (.intFmt "us", 1)]

/-- Embeds `humanize_us` from the source. -/
def humanize_us (micros : ℤ) : String := humanizeLoop micros "0us" usTable

/-- The `(fmt, scale)` table of `humanize_count`:
`[('%.3fG', 2.0**30), ('%.3fM', 2.0**20), ('%.3fK', 2.0**10), ('%d', 1)]`. -/
def countTable : List (NumFmt × ℤ) :=
  [(.dec3 "G", 1073741824), (.dec3 "M", 1048576), (.dec3 "K", 1024), (.intFmt "", 1)]

/-- Embeds `humanize_count` from the source. -/
def humanize_count (count : ℤ) : String := humanizeLoop count "0" countTable

/-! ### Python `int()` on strings -/

/-- Value of the rest of a digit run, `acc` being the value read so far.
Python's `int()` accepts single underscores between digits (`"1_000"`);
a doubled, leading or trailing underscore, or any non-digit, is an error. -/
def pyDigitsAux (acc : ℕ) : List Char → Option ℕ
  | [] => some acc
  | '_' :: c :: rest =>
    if c.isDigit then pyDigitsAux (acc * 10 + (c.toNat - 48)) rest else none
  | ['_'] => none
  | c :: rest =>
    if c.isDigit then pyDigitsAux (acc * 10 + (c.toNat - 48)) rest else none

/-- Value of a nonempty ASCII digit run with optional interior underscore
separators, or `none`. -/
def pyDigits : List Char → Option ℕ
  | [] => none
  | c :: rest => if c.isDigit then pyDigitsAux (c.toNat - 48) rest else none

/-- Python `int(s)` for a `str` argument: optional surrounding whitespace,
one optional sign, then a nonempty digit run.  `none` models `ValueError`.
(Non-ASCII digits are out of scope; every input of interest is ASCII.) -/
def pyIntOfString (s : String) : Option ℤ :=
  let t := ((s.data.dropWhile Char.isWhitespace).reverse.dropWhile Char.isWhitespace).reverse
  match t with
  | '+' :: rest => (pyDigits rest).map (fun n => (n : ℤ))
  | '-' :: rest => (pyDigits rest).map (fun n => -(n : ℤ))
  | rest => (pyDigits rest).map (fun n => (n : ℤ))

/-! ### Query statistic records and the result-row parser -/

/-- One query's telemetry record (`QueryStatistic.__slots__`). -/
structure QueryStatistic where
  name : String
  startMicros : ℤ
  elapsedMicros : ℤ
  rowsAffected : ℤ
deriving DecidableEq

/-- The Python exceptions the embedded fragments can raise. -/
inductive PyExn where
  /-- Raised by `QueryStatistic(*row)` when `row` has `given ≠ 4` fields;
  the `TypeError` message depends only on the number of arguments. -/
  | typeErrorArity (given : ℕ)
  /-- Raised by `int(lit)` on a non-numeric string; the `ValueError`
  message carries the offending literal. -/
  | valueError (lit : String)
  /-- Raised by `int(None)`: `TypeError` for an argument that is neither a
  string nor a number. -/
  | typeErrorBadArg
  /-- Raised by `subprocess.check_output` on a non-zero exit code, carrying
  the exit code and the combined captured stdout/stderr. -/
  | calledProcessError (returncode : ℤ) (output : String)
deriving DecidableEq

/-- The `int(x)` coercion applied to a raw CSV field (always a string). -/
def pyIntField (s : String) : Except PyExn ℤ :=
  match pyIntOfString s with
  | some v => .ok v
  | none => .error (.valueError s)

/-- Embeds `QueryStatistic(*row)`: requires exactly four fields; stores the name
verbatim and coerces the three numeric fields with `int()` in declaration
order, the first failing coercion raising. -/
def mkQueryStatistic (row : List String) : Except PyExn QueryStatistic :=
  match row with
  | [n, s, e, r] =>
    match pyIntField s with
    | .error ex => .error ex
    | .ok sv =>
      match pyIntField e with
      | .error ex => .error ex
      | .ok ev =>
        match pyIntField r with
        | .error ex => .error ex
        | .ok rv => .ok ⟨n, sv, ev, rv⟩
  | _ => .error (.typeErrorArity row.length)

/-- Split a character list at every occurrence of `sep`, keeping empty
pieces — the behaviour of both Python's `str.split(sep)` and, on
quote-free rows, `csv.reader`'s field split. -/
def splitOnChar (sep : Char) : List Char → List (List Char)
  | [] => [[]]
  | c :: rest =>
    if c = sep then [] :: splitOnChar sep rest
    else
      match splitOnChar sep rest with
      | [] => [[c]]
      | piece :: pieces => (c :: piece) :: pieces

/-- Field split of one result-channel row.  `csv.reader` with the default
dialect splits a quote-free row at commas; the rows dbbench writes carry
no quoting, so this is its exact behaviour on the input class at hand. -/
def csvFields (line : String) : List String :=
  (splitOnChar ',' line.data).map String.mk

/-- Parse one raw result row into a record. -/
def parseRow (line : String) : Except PyExn QueryStatistic :=
  mkQueryStatistic (csvFields line)

/-- Embeds `[QueryStatistic(*row) for row in csv.reader(statsFile)]`: rows are
processed in channel order and the first exception aborts the whole
comprehension, so no prefix of records survives a failure. -/
def parseStats : List String → Except PyExn (List QueryStatistic)
  | [] => .ok []
  | line :: rest =>
    match parseRow line with
    | .error e => .error e
    | .ok q =>
      match parseStats rest with
      | .error e => .error e
      | .ok qs => .ok (q :: qs)

/-! ### Connection descriptor -/

/-- A Python value that may arrive as the `port` argument. -/
inductive PyVal where
  | str (s : String)
  | int (n : ℤ)
  | none
deriving DecidableEq

/-- Python truthiness of a `PyVal` (`"" `, `0` and `None` are falsy). -/
def PyVal.truthy : PyVal → Bool
  | .str s => s ≠ ""
  | .int n => n ≠ 0
  | .none => false

/-- Embeds `int(port)` on a `PyVal`. -/
def pyIntCoerce : PyVal → Except PyExn ℤ
  | .str s => pyIntField s
  | .int n => .ok n
  | .none => .error .typeErrorBadArg

/-- The connection descriptor value object. -/
structure DatabaseSpec where
  host : String
  port : ℤ
  user : String
  password : String
  database : String
  driver : String
deriving DecidableEq

/-- Embeds `DatabaseSpec.__init__`: every falsy argument falls back to its
default; a truthy `port` is coerced with `int()`, and a failing coercion
raises (the partially assigned object never escapes, so modelling the
failure before construction is observationally identical). -/
def DatabaseSpec.make (host : String) (port : PyVal)
    (user password database driver : String) : Except PyExn DatabaseSpec :=
  match (if port.truthy then pyIntCoerce port else .ok 3306 : Except PyExn ℤ) with
  | .error e => .error e
  | .ok p =>
    .ok { host := if host = "" then "localhost" else host
          port := p
          user := if user = "" then "root" else user
          password := if password = "" then "" else password
          database := if database = "" then "" else database
          driver := if driver = "" then "mysql" else driver }

/-! ### Driver invocation -/

/-- Observable behaviour of one external `dbbench` process run: its exit
code, the combined stdout/stderr captured by `check_output`, and the rows
it wrote into the `--query-stats-file` channel. -/
structure ProcResult where
  returncode : ℤ
  output : String
  statsRows : List String

/-- The argument vector handed to the external executable. -/
def dbbenchCommand (d : DatabaseSpec) (statsFileName basedir configFileName : String) :
    List String :=
  ["dbbench", "--database", d.database, "--host", d.host, "--port", toString d.port,
   "--username", d.user, "--password", d.password, "--intermediate-stats=false",
   "--query-stats-file", statsFileName, "--base-dir", basedir, configFileName]

/-- Embeds `RunDbbench`, with the external process's behaviour supplied as data:
`subprocess.check_output` raises `CalledProcessError(returncode, output)`
exactly when the exit code is non-zero; otherwise the stats channel is
parsed row by row in order. -/
def RunDbbench (_d : DatabaseSpec) (proc : ProcResult) : Except PyExn (List QueryStatistic) :=
  if proc.returncode = 0 then parseStats proc.statsRows
  else .error (.calledProcessError proc.returncode proc.output)

/-! ### Query text normalizer (`CleanQuery`) -/

/-- Whether the first character of the list satisfies `p`. -/
def headIs (p : Char → Bool) : List Char → Bool
  | [] => false
  | c :: _ => p c

/-- Whether the last character of the list satisfies `p`. -/
def endsIs (p : Char → Bool) : List Char → Bool
  | [] => false
  | [c] => p c
  | _ :: c :: rest => endsIs p (c :: rest)

/-- The character class matched by the source's regexes `" +"` and
`"(^ +)|( +$)"`: the space character only, not general whitespace. -/
def spaceP (c : Char) : Bool := c == ' '

/-- Embeds `re.sub(r"--.*$", "", line)` on a newline-free line: everything from
the first occurrence of `--` (inclusive) to the end of the line is
removed; a line without `--` is unchanged. -/
def stripLineComment : List Char → List Char
  | [] => []
  | c :: rest =>
    if c == '-' && headIs (fun d => d == '-') rest then []
    else c :: stripLineComment rest

/-- Embeds `query.split("\n")`. -/
def splitLines : List Char → List (List Char) := splitOnChar '\n'

/-- Embeds `" ".join(lines)`. -/
def joinSp : List (List Char) → List Char
  | [] => []
  | [l] => l
  | l :: ls => l ++ ' ' :: joinSp ls

/-- Replace every maximal run of `ws`-characters by one space — the action
of `re.sub(r"<class>+", " ", ·)`.  For `ws = spaceP` the replacement
character equals the run's own characters, so this is exactly the source's
`re.sub(r" +", " ", query)`. -/
def collapseRuns (ws : Char → Bool) : List Char → List Char
  | [] => []
  | c :: rest =>
    if ws c && headIs ws rest then collapseRuns ws rest
    else (if ws c then ' ' else c) :: collapseRuns ws rest

/-- Remove leading and trailing `ws`-characters — the action of
`re.sub(r"(^ +)|( +$)", "", ·)` on a newline-free string (after the
`split`/`join` the string contains no newline, so `^`/`$` are exactly
begin/end of string). -/
def trimEnds (ws : Char → Bool) (l : List Char) : List Char :=
  ((l.dropWhile ws).reverse.dropWhile ws).reverse

/-- The body of `CleanQuery`: strip `--` comments per line, join the lines
with single spaces, strip leading/trailing spaces, collapse interior space
runs (in the source's order: trim, then collapse). -/
def cleanChars (l : List Char) : List Char :=
  collapseRuns spaceP (trimEnds spaceP (joinSp ((splitLines l).map stripLineComment)))

/-- Embeds `CleanQuery` from the source.  (The Python module never imports `re`,
so the function as shipped raises `NameError` on every call; this embeds
the body's intended and documented semantics, with `re` bound to the
standard regex module.) -/
def CleanQuery (s : String) : String := String.mk (cleanChars s.data)

/-- The same pipeline parameterised by the collapsed/trimmed character
class, in the spec's stage order (collapse runs, then trim the ends). -/
def normalizeByWS (ws : Char → Bool) (l : List Char) : List Char :=
  trimEnds ws (collapseRuns ws (joinSp ((splitLines l).map stripLineComment)))

/-- Modelled from the spec's words for claim C1: the normalizer that
collapses runs of interior *whitespace* and trims leading/trailing
*whitespace*, as the spec sentence says. -/
def claimedNormalize (s : String) : String :=
  String.mk (normalizeByWS Char.isWhitespace s.data)

/-- The amended normalizer: the spec pipeline restricted to the space
character — the class the source's regexes actually match. -/
def spaceNormalize (s : String) : String :=
  String.mk (normalizeByWS spaceP s.data)

/-- No two adjacent dashes, i.e. no occurrence of the substring `--`. -/
abbrev noDD (l : List Char) : Prop :=
  List.Chain' (fun a b => ¬(a = '-' ∧ b = '-')) l

/-- No two adjacent spaces, i.e. no occurrence of a double space. -/
abbrev noSS (l : List Char) : Prop :=
  List.Chain' (fun a b => ¬(a = ' ' ∧ b = ' ')) l

/-! ### Claim theorems about unit formatting -/

/-- Claim C6: For every microsecond count `v ≥ 1`, `humanize_us` picks the
largest scale from its table that `v` meets or exceeds (largest first) and
renders `v / scale` with that entry's format (`'%.3f'` with suffix, or the
integer format for the `us` entry); `humanize_us 0 = "0us"`; and the four
quoted examples hold. -/
theorem humanize_us_selects_largest_scale :
    (∀ v : ℤ, 1 ≤ v → ∃ e ∈ usTable, e.2 ≤ v ∧
      (∀ f ∈ usTable, f.2 ≤ v → f.2 ≤ e.2) ∧ humanize_us v = applyFmt e.1 v e.2) ∧
    (∀ v : ℤ, 1 ≤ v → v < 1000 → humanize_us v = toString v ++ "us") ∧
    humanize_us 0 = "0us" ∧
    humanize_us 3661000000 = "1.017h" ∧
    humanize_us 1000 = "1.000ms" ∧
    humanize_us 999 = "999us" := by
  refine ⟨?_, ?_, by decide, by decide, by decide, by decide⟩
  · intro v hv
    by_cases h1 : (3600000000 : ℤ) ≤ v
    · refine ⟨(.dec3 "h", 3600000000), by simp [usTable], h1, ?_, ?_⟩
      · intro f hf _
        simp only [usTable, List.mem_cons, List.not_mem_nil, or_false] at hf
        rcases hf with rfl | rfl | rfl | rfl | rfl <;> simp
      · simp [humanize_us, humanizeLoop, usTable, h1]
    · by_cases h2 : (60000000 : ℤ) ≤ v
      · refine ⟨(.dec3 "m", 60000000), by simp [usTable], h2, ?_, ?_⟩
        · intro f hf hfv
          simp only [usTable, List.mem_cons, List.not_mem_nil, or_false] at hf
          rcases hf with rfl | rfl | rfl | rfl | rfl <;> simp <;> omega
        · simp [humanize_us, humanizeLoop, usTable, h1, h2]
      · by_cases h3 : (1000000 : ℤ) ≤ v
        · refine ⟨(.dec3 "s", 1000000), by simp [usTable], h3, ?_, ?_⟩
          · intro f hf hfv
            simp only [usTable, List.mem_cons, List.not_mem_nil, or_false] at hf
            rcases hf with rfl | rfl | rfl | rfl | rfl <;> simp <;> omega
          · simp [humanize_us, humanizeLoop, usTable, h1, h2, h3]
        · by_cases h4 : (1000 : ℤ) ≤ v
          · refine ⟨(.dec3 "ms", 1000), by simp [usTable], h4, ?_, ?_⟩
            · intro f hf hfv
              simp only [usTable, List.mem_cons, List.not_mem_nil, or_false] at hf
              rcases hf with rfl | rfl | rfl | rfl | rfl <;> simp <;> omega
            · simp [humanize_us, humanizeLoop, usTable, h1, h2, h3, h4]
          · refine ⟨(.intFmt "us", 1), by simp [usTable], hv, ?_, ?_⟩
            · intro f hf hfv
              simp only [usTable, List.mem_cons, List.not_mem_nil, or_false] at hf
              rcases hf with rfl | rfl | rfl | rfl | rfl <;> simp <;> omega
            · simp [humanize_us, humanizeLoop, usTable, h1, h2, h3, h4, hv]
  · intro v hv hv'
    have h1 : ¬ (3600000000 : ℤ) ≤ v := by omega
    have h2 : ¬ (60000000 : ℤ) ≤ v := by omega
    have h3 : ¬ (1000000 : ℤ) ≤ v := by omega
    have h4 : ¬ (1000 : ℤ) ≤ v := by omega
    simp [humanize_us, humanizeLoop, usTable, h1, h2, h3, h4, hv, applyFmt]

/-- Witness for C6: the selection property instantiated at `v = 1024`. -/
theorem humanize_us_selects_largest_scale_witness :
    ∃ e ∈ usTable, e.2 ≤ (1024 : ℤ) ∧
      (∀ f ∈ usTable, f.2 ≤ (1024 : ℤ) → f.2 ≤ e.2) ∧
      humanize_us 1024 = applyFmt e.1 1024 e.2 :=
  humanize_us_selects_largest_scale.1 1024 (by decide)

/-- Claim C9: For every count `c ≥ 1`, `humanize_count` picks the largest
binary scale from its table that `c` meets or exceeds (largest first);
counts below `2^10` are rendered as plain integers; `humanize_count 0 = "0"`;
and `humanize_count 1024 = "1.000K"`. -/
theorem humanize_count_selects_largest_scale :
    (∀ c : ℤ, 1 ≤ c → ∃ e ∈ countTable, e.2 ≤ c ∧
      (∀ f ∈ countTable, f.2 ≤ c → f.2 ≤ e.2) ∧ humanize_count c = applyFmt e.1 c e.2) ∧
    (∀ c : ℤ, 1 ≤ c → c < 1024 → humanize_count c = toString c) ∧
    humanize_count 0 = "0" ∧
    humanize_count 1024 = "1.000K" := by
  refine ⟨?_, ?_, by decide, by decide⟩
  · intro c hc
    by_cases h1 : (1073741824 : ℤ) ≤ c
    · refine ⟨(.dec3 "G", 1073741824), by simp [countTable], h1, ?_, ?_⟩
      · intro f hf _
        simp only [countTable, List.mem_cons, List.not_mem_nil, or_false] at hf
        rcases hf with rfl | rfl | rfl | rfl <;> simp
      · simp [humanize_count, humanizeLoop, countTable, h1]
    · by_cases h2 : (1048576 : ℤ) ≤ c
      · refine ⟨(.dec3 "M", 1048576), by simp [countTable], h2, ?_, ?_⟩
        · intro f hf hfc
          simp only [countTable, List.mem_cons, List.not_mem_nil, or_false] at hf
          rcases hf with rfl | rfl | rfl | rfl <;> simp <;> omega
        · simp [humanize_count, humanizeLoop, countTable, h1, h2]
      · by_cases h3 : (1024 : ℤ) ≤ c
        · refine ⟨(.dec3 "K", 1024), by simp [countTable], h3, ?_, ?_⟩
          · intro f hf hfc
            simp only [countTable, List.mem_cons, List.not_mem_nil, or_false] at hf
            rcases hf with rfl | rfl | rfl | rfl <;> simp <;> omega
          · simp [humanize_count, humanizeLoop, countTable, h1, h2, h3]
        · refine ⟨(.intFmt "", 1), by simp [countTable], hc, ?_, ?_⟩
          · intro f hf hfc
            simp only [countTable, List.mem_cons, List.not_mem_nil, or_false] at hf
            rcases hf with rfl | rfl | rfl | rfl <;> simp <;> omega
          · simp [humanize_count, humanizeLoop, countTable, h1, h2, h3, hc]
  · intro c hc hc'
    have h1 : ¬ (1073741824 : ℤ) ≤ c := by omega
    have h2 : ¬ (1048576 : ℤ) ≤ c := by omega
    have h3 : ¬ (1024 : ℤ) ≤ c := by omega
    simp [humanize_count, humanizeLoop, countTable, h1, h2, h3, hc, applyFmt]

/-- Witness for C9: the selection property instantiated at `c = 2048`. -/
theorem humanize_count_selects_largest_scale_witness :
    ∃ e ∈ countTable, e.2 ≤ (2048 : ℤ) ∧
      (∀ f ∈ countTable, f.2 ≤ (2048 : ℤ) → f.2 ≤ e.2) ∧
      humanize_count 2048 = applyFmt e.1 2048 e.2 :=
  humanize_count_selects_largest_scale.1 2048 (by decide)

/-- Claim C10: A negative input fails every `value >= scale` test, so both
helpers fall through to their zero-case fallback strings. -/
theorem humanize_negative_falls_through (v : ℤ) (hv : v < 0) :
    humanize_us v = "0us" ∧ humanize_count v = "0" := by
  have h1 : ¬ (3600000000 : ℤ) ≤ v := by omega
  have h2 : ¬ (60000000 : ℤ) ≤ v := by omega
  have h3 : ¬ (1000000 : ℤ) ≤ v := by omega
  have h4 : ¬ (1000 : ℤ) ≤ v := by omega
  have h5 : ¬ (1 : ℤ) ≤ v := by omega
  have g1 : ¬ (1073741824 : ℤ) ≤ v := by omega
  have g2 : ¬ (1048576 : ℤ) ≤ v := by omega
  have g3 : ¬ (1024 : ℤ) ≤ v := by omega
  constructor
  · simp [humanize_us, humanizeLoop, usTable, h1, h2, h3, h4, h5]
  · simp [humanize_count, humanizeLoop, countTable, g1, g2, g3, h5]

/-- Witness for C10 at `v = -1`. -/
theorem humanize_negative_falls_through_witness :
    humanize_us (-1) = "0us" ∧ humanize_count (-1) = "0" :=
  humanize_negative_falls_through (-1) (by decide)

/-! ### Result-parser lemmas and claim theorems -/

/-- A row with a field count other than four hits the `TypeError` branch. -/
theorem mkQueryStatistic_arity (fs : List String) (hlen : fs.length ≠ 4) :
    mkQueryStatistic fs = .error (.typeErrorArity fs.length) := by
  rcases fs with _ | ⟨a, _ | ⟨b, _ | ⟨c, _ | ⟨d, _ | ⟨e, t⟩⟩⟩⟩⟩
  · rfl
  · rfl
  · rfl
  · rfl
  · exact absurd rfl hlen
  · rfl

/-- If any row of the channel fails to parse, the whole run fails. -/
theorem parseStats_error_of_mem {rows : List String} {line : String} {err : PyExn}
    (hmem : line ∈ rows) (hrow : parseRow line = .error err) :
    ∃ e, parseStats rows = .error e := by
  induction rows with
  | nil => cases hmem
  | cons l0 rest ih =>
    rcases List.mem_cons.mp hmem with rfl | htail
    · exact ⟨err, by simp [parseStats, hrow]⟩
    · cases h0 : parseRow l0 with
      | error e0 => exact ⟨e0, by simp [parseStats, h0]⟩
      | ok q =>
        obtain ⟨e1, he1⟩ := ih htail
        exact ⟨e1, by simp [parseStats, h0, he1]⟩

/-- Claim C3, amended: A malformed result row makes the invocation fail and
return no records at all: a wrong field count raises `TypeError` carrying
only the number of fields, a non-numeric first numeric field raises
`ValueError` carrying the offending literal, and any failing row makes
`parseStats` return an error instead of any (even partial) record list. -/
theorem malformed_row_fails_invocation :
    (∀ line, (csvFields line).length ≠ 4 →
      parseRow line = .error (.typeErrorArity (csvFields line).length)) ∧
    (∀ line n s e r, csvFields line = [n, s, e, r] → pyIntOfString s = Option.none →
      parseRow line = .error (.valueError s)) ∧
    (∀ rows line err, line ∈ rows → parseRow line = .error err →
      ∃ e, parseStats rows = .error e) := by
  refine ⟨?_, ?_, ?_⟩
  · intro line hlen
    exact mkQueryStatistic_arity _ hlen
  · intro line n s e r hfields hs
    unfold parseRow
    rw [hfields]
    simp [mkQueryStatistic, pyIntField, hs]
  · intro rows line err hmem hrow
    exact parseStats_error_of_mem hmem hrow

/-- Witness for C3: the row `"q,x,2,3"` (non-numeric start offset) fails
the whole one-row channel. -/
theorem malformed_row_fails_invocation_witness :
    ∃ e, parseStats ["q,x,2,3"] = .error e :=
  malformed_row_fails_invocation.2.2 ["q,x,2,3"] "q,x,2,3" (.valueError "x")
    (by decide) (by decide)

/-- Claim C3, counterexample: The wrong-field-count failure cannot identify
the offending row: two different three-field rows produce the identical
error value (Python's `TypeError` message mentions only the argument
count), so no `ResultParseError` naming the row exists. -/
theorem malformed_row_error_does_not_identify_row :
    parseStats ["q1,0,500"] = .error (.typeErrorArity 3) ∧
    parseStats ["q2,9,9"] = .error (.typeErrorArity 3) ∧
    ("q1,0,500" : String) ≠ "q2,9,9" := by decide

/-- Claim C7: Parsing the two quoted rows yields exactly the two records, in
order, with the exact integer fields of the input; in general the record
at index `i` is the parse of the row at index `i`: row order is preserved
and nothing is reordered, dropped or invented. -/
theorem parseStats_preserves_row_order :
    parseStats ["q1,0,500,10", "q2,500,1200,3"] =
      .ok [⟨"q1", 0, 500, 10⟩, ⟨"q2", 500, 1200, 3⟩] ∧
    ∀ rows recs, parseStats rows = .ok recs →
      recs.length = rows.length ∧
      ∀ i (h1 : i < rows.length) (h2 : i < recs.length),
        parseRow (rows.get ⟨i, h1⟩) = .ok (recs.get ⟨i, h2⟩) := by
  refine ⟨by decide, ?_⟩
  intro rows
  induction rows with
  | nil =>
    intro recs hp
    simp only [parseStats] at hp
    cases hp
    exact ⟨rfl, fun i h1 _ => absurd h1 (Nat.not_lt_zero i)⟩
  | cons l0 rest ih =>
    intro recs hp
    simp only [parseStats] at hp
    cases h0 : parseRow l0 with
    | error e0 => rw [h0] at hp; cases hp
    | ok q =>
      rw [h0] at hp
      cases hs : parseStats rest with
      | error e1 => rw [hs] at hp; cases hp
      | ok qs =>
        rw [hs] at hp
        cases hp
        obtain ⟨hlen, hpt⟩ := ih qs hs
        refine ⟨by simp [hlen], ?_⟩
        intro i h1 h2
        cases i with
        | zero => exact h0
        | succ j =>
          exact hpt j (Nat.lt_of_succ_lt_succ h1) (Nat.lt_of_succ_lt_succ h2)

/-- Witness for C7: the order/pointwise property applied to the concrete
one-row channel `["a,1,2,3"]`. -/
theorem parseStats_preserves_row_order_witness :
    ([QueryStatistic.mk "a" 1 2 3].length = (["a,1,2,3"] : List String).length) ∧
    parseRow ((["a,1,2,3"] : List String).get ⟨0, by decide⟩) =
      .ok ([QueryStatistic.mk "a" 1 2 3].get ⟨0, by decide⟩) :=
  ⟨(parseStats_preserves_row_order.2 ["a,1,2,3"] [⟨"a", 1, 2, 3⟩] (by decide)).1,
   (parseStats_preserves_row_order.2 ["a,1,2,3"] [⟨"a", 1, 2, 3⟩] (by decide)).2
     0 (by decide) (by decide)⟩

/-! ### Connection-descriptor claim theorems -/

/-- Claim C4, amended: A truthy `port` that fails `int()` coercion is a
construction error (`ValueError` carrying the literal); a falsy `port`
falls back to 3306; but the coerced value is stored without any
positivity check. -/
theorem databaseSpec_port_behaviour :
    (∀ ho us pw db dr s, s ≠ "" → pyIntOfString s = Option.none →
      DatabaseSpec.make ho (.str s) us pw db dr = .error (.valueError s)) ∧
    (∀ ho us pw db dr p, PyVal.truthy p = false →
      ∃ spec, DatabaseSpec.make ho p us pw db dr = .ok spec ∧ spec.port = 3306) ∧
    (∀ ho us pw db dr n, n ≠ 0 →
      ∃ spec, DatabaseSpec.make ho (.int n) us pw db dr = .ok spec ∧ spec.port = n) := by
  refine ⟨?_, ?_, ?_⟩
  · intro ho us pw db dr s hs hnone
    have ht : PyVal.truthy (.str s) = true := by simp [PyVal.truthy, hs]
    simp [DatabaseSpec.make, ht, pyIntCoerce, pyIntField, hnone]
  · intro ho us pw db dr p hp
    refine ⟨⟨if ho = "" then "localhost" else ho, 3306, if us = "" then "root" else us,
      if pw = "" then "" else pw, if db = "" then "" else db,
      if dr = "" then "mysql" else dr⟩, ?_, rfl⟩
    simp [DatabaseSpec.make, hp]
  · intro ho us pw db dr n hn
    have ht : PyVal.truthy (.int n) = true := by simp [PyVal.truthy, hn]
    refine ⟨⟨if ho = "" then "localhost" else ho, n, if us = "" then "root" else us,
      if pw = "" then "" else pw, if db = "" then "" else db,
      if dr = "" then "mysql" else dr⟩, ?_, rfl⟩
    simp [DatabaseSpec.make, ht, pyIntCoerce]

/-- Witness for C4 (amended) at the non-numeric port `"abc"`. -/
theorem databaseSpec_port_behaviour_witness :
    DatabaseSpec.make "" (.str "abc") "" "" "" "" = .error (.valueError "abc") :=
  databaseSpec_port_behaviour.1 "" "" "" "" "" "abc" (by decide) (by decide)

/-- Claim C4, counterexample: Ports `"-5"` and `"0"` coerce successfully,
so descriptors with a non-positive port are produced. -/
theorem databaseSpec_nonpositive_port_counterexample :
    DatabaseSpec.make "" (.str "-5") "" "" "" "" =
      .ok ⟨"localhost", -5, "root", "", "", "mysql"⟩ ∧
    DatabaseSpec.make "" (.str "0") "" "" "" "" =
      .ok ⟨"localhost", 0, "root", "", "", "mysql"⟩ ∧
    (-5 : ℤ) < 0 := by decide

/-- Claim C8: Every-field-falsy construction yields exactly the documented
defaults; passing the default values explicitly (the all-absent call)
yields the same record; and in general each falsy string argument is
replaced by its default while truthy arguments are kept, so no field is
ever left unset. -/
theorem databaseSpec_defaults :
    (∀ p : PyVal, PyVal.truthy p = false →
      DatabaseSpec.make "" p "" "" "" "" =
        .ok ⟨"localhost", 3306, "root", "", "", "mysql"⟩) ∧
    DatabaseSpec.make "localhost" (.int 3306) "root" "" "" "mysql" =
      .ok ⟨"localhost", 3306, "root", "", "", "mysql"⟩ ∧
    (∀ ho us pw db dr n, n ≠ 0 →
      DatabaseSpec.make ho (.int n) us pw db dr =
        .ok ⟨if ho = "" then "localhost" else ho, n,
             if us = "" then "root" else us, pw, db,
             if dr = "" then "mysql" else dr⟩) := by
  refine ⟨?_, by decide, ?_⟩
  · intro p hp
    simp [DatabaseSpec.make, hp]
  · intro ho us pw db dr n hn
    have ht : PyVal.truthy (.int n) = true := by simp [PyVal.truthy, hn]
    simp [DatabaseSpec.make, ht, pyIntCoerce]
    constructor
    · by_cases hpw : pw = "" <;> simp [hpw]
    · by_cases hdb : db = "" <;> simp [hdb]

/-- Witness for C8: the all-empty construction. -/
theorem databaseSpec_defaults_witness :
    DatabaseSpec.make "" (.str "") "" "" "" "" =
      .ok ⟨"localhost", 3306, "root", "", "", "mysql"⟩ :=
  databaseSpec_defaults.1 (.str "") (by decide)

/-! ### Driver-invocation claim theorem -/

/-- Claim C5: Whenever the external process exits non-zero, `RunDbbench`
fails with `subprocess.CalledProcessError` (the realization of the spec's
`BenchmarkExecutionError`) carrying the exit code and the combined
captured output, and returns no records — whatever was written to the
stats channel. -/
theorem nonzero_exit_fails (d : DatabaseSpec) (proc : ProcResult)
    (hc : proc.returncode ≠ 0) :
    RunDbbench d proc = .error (.calledProcessError proc.returncode proc.output) := by
  simp [RunDbbench, hc]

/-- Witness for C5: exit code 1 with parsable rows in the channel still
yields the execution error, not records. -/
theorem nonzero_exit_fails_witness :
    RunDbbench ⟨"localhost", 3306, "root", "", "", "mysql"⟩ ⟨1, "boom", ["q,1,2,3"]⟩ =
      .error (.calledProcessError 1 "boom") :=
  nonzero_exit_fails ⟨"localhost", 3306, "root", "", "", "mysql"⟩ ⟨1, "boom", ["q,1,2,3"]⟩
    (by decide)

/-! ### Normalizer lemmas -/

/-- The replacement character of a space run is the run's own character. -/
theorem spaceP_emit (c : Char) : (if spaceP c then ' ' else c) = c := by
  by_cases h : c = ' '
  · simp [spaceP, h]
  · simp [spaceP, h]

theorem spaceP_emit_fun : (fun c => if spaceP c then ' ' else c) = id :=
  funext fun c => spaceP_emit c

theorem collapseRuns_head? (ws : Char → Bool) (l : List Char) :
    (collapseRuns ws l).head? = l.head?.map (fun c => if ws c then ' ' else c) := by
  induction l with
  | nil => rfl
  | cons c rest ih =>
    simp only [collapseRuns]
    by_cases h : ws c && headIs ws rest
    · rw [if_pos h, ih]
      cases rest with
      | nil => simp [headIs] at h
      | cons d t =>
        simp only [headIs, Bool.and_eq_true] at h
        simp [h.1, h.2]
    · rw [if_neg h]
      simp

theorem collapseRuns_head?_space (l : List Char) :
    (collapseRuns spaceP l).head? = l.head? := by
  rw [collapseRuns_head?, spaceP_emit_fun, Option.map_id, id]

theorem collapseRuns_ne_nil (ws : Char → Bool) (c : Char) (rest : List Char) :
    collapseRuns ws (c :: rest) ≠ [] := by
  intro hnil
  have h := collapseRuns_head? ws (c :: rest)
  rw [hnil] at h
  simp at h

theorem collapseRuns_getLast? (ws : Char → Bool) (l : List Char) :
    (collapseRuns ws l).getLast? = l.getLast?.map (fun c => if ws c then ' ' else c) := by
  induction l with
  | nil => rfl
  | cons c rest ih =>
    simp only [collapseRuns]
    by_cases h : ws c && headIs ws rest
    · rw [if_pos h]
      cases rest with
      | nil => simp [headIs] at h
      | cons d t => rw [ih, List.getLast?_cons_cons]
    · rw [if_neg h]
      cases rest with
      | nil => simp [collapseRuns]
      | cons d t =>
        obtain ⟨x, xs, hx⟩ := List.exists_cons_of_ne_nil (collapseRuns_ne_nil ws d t)
        rw [hx, List.getLast?_cons_cons, ← hx, ih, List.getLast?_cons_cons]

theorem collapseRuns_getLast?_space (l : List Char) :
    (collapseRuns spaceP l).getLast? = l.getLast? := by
  rw [collapseRuns_getLast?, spaceP_emit_fun, Option.map_id, id]

theorem mem_collapseRuns (ws : Char → Bool) (x : Char) (l : List Char)
    (hx : x ∈ collapseRuns ws l) : x = ' ' ∨ x ∈ l := by
  induction l with
  | nil => simp [collapseRuns] at hx
  | cons c rest ih =>
    simp only [collapseRuns] at hx
    by_cases h : ws c && headIs ws rest
    · rw [if_pos h] at hx
      rcases ih hx with h1 | h1
      · exact Or.inl h1
      · exact Or.inr (List.mem_cons_of_mem _ h1)
    · rw [if_neg h] at hx
      rcases List.mem_cons.mp hx with h1 | h1
      · by_cases hws : ws c
        · left; rw [h1, if_pos hws]
        · right; rw [h1, if_neg hws]; exact List.mem_cons_self _ _
      · rcases ih h1 with h2 | h2
        · exact Or.inl h2
        · exact Or.inr (List.mem_cons_of_mem _ h2)

/-- Collapsing space runs preserves any adjacency invariant: each adjacent
pair of the output was an adjacent pair of the input. -/
theorem collapseRuns_chain' (R : Char → Char → Prop) (l : List Char)
    (h : List.Chain' R l) : List.Chain' R (collapseRuns spaceP l) := by
  induction l with
  | nil => simpa [collapseRuns] using h
  | cons c rest ih =>
    simp only [collapseRuns]
    by_cases hc : spaceP c && headIs spaceP rest
    · rw [if_pos hc]
      exact ih (List.chain'_cons'.mp h).2
    · rw [if_neg hc, spaceP_emit]
      refine List.chain'_cons'.mpr ⟨?_, ih (List.chain'_cons'.mp h).2⟩
      intro y hy
      rw [collapseRuns_head?_space] at hy
      exact (List.chain'_cons'.mp h).1 y hy

/-- The output of the space-run collapse has no double space. -/
theorem collapseRuns_no_double_space (l : List Char) :
    noSS (collapseRuns spaceP l) := by
  induction l with
  | nil => simp [collapseRuns]
  | cons c rest ih =>
    simp only [collapseRuns]
    by_cases hc : spaceP c && headIs spaceP rest
    · rw [if_pos hc]; exact ih
    · rw [if_neg hc, spaceP_emit]
      refine List.chain'_cons'.mpr ⟨?_, ih⟩
      intro y hy hcy
      rw [collapseRuns_head?_space] at hy
      apply hc
      cases rest with
      | nil => simp at hy
      | cons d t =>
        simp only [List.head?_cons, Option.mem_def, Option.some.injEq] at hy
        simp [spaceP, headIs, hcy.1, hy, hcy.2]

/-- A list without double spaces is a fixed point of the collapse. -/
theorem collapseRuns_eq_self (l : List Char) (h : noSS l) :
    collapseRuns spaceP l = l := by
  induction l with
  | nil => rfl
  | cons c rest ih =>
    simp only [collapseRuns]
    have hcond : ¬((spaceP c && headIs spaceP rest) = true) := by
      intro hcond
      cases rest with
      | nil => simp [headIs] at hcond
      | cons d t =>
        simp only [spaceP, headIs, Bool.and_eq_true, beq_iff_eq,
          decide_eq_true_eq] at hcond
        exact (List.chain'_cons'.mp h).1 d rfl ⟨hcond.1, hcond.2⟩
    rw [if_neg hcond, spaceP_emit, ih (List.chain'_cons'.mp h).2]

theorem mem_stripLineComment (x : Char) (l : List Char)
    (hx : x ∈ stripLineComment l) : x ∈ l := by
  induction l with
  | nil => simpa [stripLineComment] using hx
  | cons c rest ih =>
    simp only [stripLineComment] at hx
    by_cases h : c == '-' && headIs (fun d => d == '-') rest
    · rw [if_pos h] at hx
      cases hx
    · rw [if_neg h] at hx
      rcases List.mem_cons.mp hx with h1 | h1
      · rw [h1]; exact List.mem_cons_self _ _
      · exact List.mem_cons_of_mem _ (ih h1)

theorem stripLineComment_head? (l : List Char) :
    stripLineComment l = [] ∨ (stripLineComment l).head? = l.head? := by
  cases l with
  | nil => exact Or.inl rfl
  | cons c rest =>
    simp only [stripLineComment]
    by_cases h : c == '-' && headIs (fun d => d == '-') rest
    · rw [if_pos h]; exact Or.inl rfl
    · rw [if_neg h]; exact Or.inr rfl

/-- Removing everything from the first `--` leaves no `--` behind. -/
theorem stripLineComment_noDD (l : List Char) : noDD (stripLineComment l) := by
  induction l with
  | nil => simp [stripLineComment]
  | cons c rest ih =>
    simp only [stripLineComment]
    by_cases h : c == '-' && headIs (fun d => d == '-') rest
    · rw [if_pos h]; simp
    · rw [if_neg h]
      refine List.chain'_cons'.mpr ⟨?_, ih⟩
      intro y hy hcy
      rcases stripLineComment_head? rest with hnil | hhd
      · rw [hnil] at hy; cases hy
      · rw [hhd] at hy
        cases rest with
        | nil => cases hy
        | cons d t =>
          simp only [List.head?_cons, Option.mem_def, Option.some.injEq] at hy
          apply h
          simp [headIs, hcy.1, hy, hcy.2]

/-- A line without `--` is a fixed point of the comment strip. -/
theorem stripLineComment_eq_self (l : List Char) (h : noDD l) :
    stripLineComment l = l := by
  induction l with
  | nil => rfl
  | cons c rest ih =>
    simp only [stripLineComment]
    have hcond : ¬((c == '-' && headIs (fun d => d == '-') rest) = true) := by
      intro hcond
      cases rest with
      | nil => simp [headIs] at hcond
      | cons d t =>
        simp only [headIs, Bool.and_eq_true, beq_iff_eq] at hcond
        exact (List.chain'_cons'.mp h).1 d rfl ⟨hcond.1, hcond.2⟩
    rw [if_neg hcond, ih (List.chain'_cons'.mp h).2]

theorem splitOnChar_ne_nil (sep : Char) (l : List Char) : splitOnChar sep l ≠ [] := by
  cases l with
  | nil => simp [splitOnChar]
  | cons c rest =>
    simp only [splitOnChar]
    by_cases h : c = sep
    · rw [if_pos h]; simp
    · rw [if_neg h]
      cases hs : splitOnChar sep rest <;> simp

/-- Every character of every piece of the split comes from the input and
is not the separator. -/
theorem mem_splitOnChar (sep : Char) (l : List Char) :
    ∀ m ∈ splitOnChar sep l, ∀ x ∈ m, x ∈ l ∧ x ≠ sep := by
  induction l with
  | nil =>
    intro m hm x hx
    simp only [splitOnChar, List.mem_singleton] at hm
    rw [hm] at hx
    cases hx
  | cons c rest ih =>
    intro m hm x hx
    simp only [splitOnChar] at hm
    by_cases h : c = sep
    · rw [if_pos h] at hm
      rcases List.mem_cons.mp hm with h1 | h1
      · rw [h1] at hx; cases hx
      · obtain ⟨h2, h3⟩ := ih m h1 x hx
        exact ⟨List.mem_cons_of_mem _ h2, h3⟩
    · rw [if_neg h] at hm
      cases hs : splitOnChar sep rest with
      | nil => exact absurd hs (splitOnChar_ne_nil sep rest)
      | cons p ps =>
        rw [hs] at hm
        rcases List.mem_cons.mp hm with h1 | h1
        · rw [h1] at hx
          rcases List.mem_cons.mp hx with h2 | h2
          · rw [h2]; exact ⟨List.mem_cons_self _ _, h⟩
          · obtain ⟨h3, h4⟩ := ih p (by rw [hs]; exact List.mem_cons_self _ _) x h2
            exact ⟨List.mem_cons_of_mem _ h3, h4⟩
        · obtain ⟨h3, h4⟩ := ih m (by rw [hs]; exact List.mem_cons_of_mem _ h1) x hx
          exact ⟨List.mem_cons_of_mem _ h3, h4⟩

/-- A separator-free list splits into the single piece `[l]`. -/
theorem splitOnChar_eq_single (sep : Char) (l : List Char) (h : sep ∉ l) :
    splitOnChar sep l = [l] := by
  induction l with
  | nil => rfl
  | cons c rest ih =>
    have h1 : ¬ c = sep := fun hc => h (by rw [hc]; exact List.mem_cons_self _ _)
    have h2 : sep ∉ rest := fun hr => h (List.mem_cons_of_mem _ hr)
    simp only [splitOnChar, if_neg h1, ih h2]

theorem mem_joinSp (ls : List (List Char)) (x : Char) (hx : x ∈ joinSp ls) :
    x = ' ' ∨ ∃ m ∈ ls, x ∈ m := by
  induction ls with
  | nil => cases hx
  | cons l rest ih =>
    cases rest with
    | nil => exact Or.inr ⟨l, List.mem_cons_self _ _, hx⟩
    | cons l2 rest2 =>
      simp only [joinSp] at hx
      rcases List.mem_append.mp hx with h1 | h2
      · exact Or.inr ⟨l, List.mem_cons_self _ _, h1⟩
      · rcases List.mem_cons.mp h2 with h3 | h3
        · exact Or.inl h3
        · rcases ih h3 with h4 | ⟨m, hm, hxm⟩
          · exact Or.inl h4
          · exact Or.inr ⟨m, List.mem_cons_of_mem _ hm, hxm⟩

/-- Joining piecewise `R`-chained lists with spaces preserves the chain,
provided a space is `R`-compatible with everything. -/
theorem joinSp_chain' (R : Char → Char → Prop) (ls : List (List Char))
    (hall : ∀ m ∈ ls, List.Chain' R m)
    (hsp1 : ∀ a, R a ' ') (hsp2 : ∀ b, R ' ' b) :
    List.Chain' R (joinSp ls) := by
  induction ls with
  | nil => simp [joinSp]
  | cons l rest ih =>
    cases rest with
    | nil => exact hall l (List.mem_cons_self _ _)
    | cons l2 rest2 =>
      simp only [joinSp]
      refine List.chain'_append.mpr
        ⟨hall l (List.mem_cons_self _ _), ?_, ?_⟩
      · refine List.chain'_cons'.mpr
          ⟨fun y _ => hsp2 y, ih (fun m hm => hall m (List.mem_cons_of_mem _ hm))⟩
      · intro a _ y hy
        simp only [List.head?_cons, Option.mem_def, Option.some.injEq] at hy
        rw [← hy]
        exact hsp1 a

theorem dropWhile_chain' (p : Char → Bool) (R : Char → Char → Prop)
    (l : List Char) (h : List.Chain' R l) : List.Chain' R (l.dropWhile p) := by
  induction l with
  | nil => simpa using h
  | cons c rest ih =>
    rw [List.dropWhile_cons]
    split
    · exact ih (List.chain'_cons'.mp h).2
    · exact h

theorem trimEnds_chain' (ws : Char → Bool) (R : Char → Char → Prop)
    (l : List Char) (h : List.Chain' R l) : List.Chain' R (trimEnds ws l) := by
  have h1 := dropWhile_chain' ws R l h
  have h2 : List.Chain' (flip R) (l.dropWhile ws).reverse := List.chain'_reverse.mpr h1
  have h3 := dropWhile_chain' ws (flip R) _ h2
  exact List.chain'_reverse.mpr h3

theorem mem_trimEnds (ws : Char → Bool) (x : Char) (l : List Char)
    (hx : x ∈ trimEnds ws l) : x ∈ l := by
  unfold trimEnds at hx
  rw [List.mem_reverse] at hx
  have h1 := (List.dropWhile_sublist ws).subset hx
  rw [List.mem_reverse] at h1
  exact (List.dropWhile_sublist ws).subset h1

theorem trimEnds_getLast? (ws : Char → Bool) (l : List Char) :
    ∀ y ∈ (trimEnds ws l).getLast?, ws y = false := by
  intro y hy
  unfold trimEnds at hy
  rw [List.getLast?_reverse] at hy
  have hnot := List.head?_dropWhile_not ws ((l.dropWhile ws).reverse)
  cases hh : (((l.dropWhile ws).reverse).dropWhile ws).head? with
  | none => rw [hh] at hy; cases hy
  | some z =>
    rw [hh] at hy hnot
    simp only [Option.mem_def, Option.some.injEq] at hy
    have hz : ws z = false := hnot
    exact hy ▸ hz

theorem trimEnds_head? (ws : Char → Bool) (l : List Char) :
    ∀ y ∈ (trimEnds ws l).head?, ws y = false := by
  intro y hy
  have hpre : trimEnds ws l <+: l.dropWhile ws := by
    unfold trimEnds
    rw [← List.reverse_suffix, List.reverse_reverse]
    exact List.dropWhile_suffix ws
  obtain ⟨t, ht⟩ := hpre
  cases htr : trimEnds ws l with
  | nil => rw [htr] at hy; cases hy
  | cons a rest =>
    rw [htr] at hy ht
    simp only [List.head?_cons, Option.mem_def, Option.some.injEq] at hy
    have hnot := List.head?_dropWhile_not ws l
    rw [← ht] at hnot
    simp only [List.cons_append, List.head?_cons] at hnot
    exact hy ▸ hnot

theorem dropWhile_eq_self_of_head (p : Char → Bool) (l : List Char)
    (h : ∀ y ∈ l.head?, p y = false) : l.dropWhile p = l := by
  cases l with
  | nil => rfl
  | cons c rest =>
    have hc : p c = false := h c rfl
    simp [List.dropWhile_cons, hc]

theorem trimEnds_eq_self (ws : Char → Bool) (l : List Char)
    (h1 : ∀ y ∈ l.head?, ws y = false) (h2 : ∀ y ∈ l.getLast?, ws y = false) :
    trimEnds ws l = l := by
  unfold trimEnds
  rw [dropWhile_eq_self_of_head ws l h1]
  have hrev : l.reverse.dropWhile ws = l.reverse := by
    apply dropWhile_eq_self_of_head
    intro y hy
    rw [List.head?_reverse] at hy
    exact h2 y hy
  rw [hrev, List.reverse_reverse]

/-- One-step unfolding of `collapseRuns` at a cons cell. -/
theorem collapseRuns_cons (ws : Char → Bool) (c : Char) (rest : List Char) :
    collapseRuns ws (c :: rest) =
      if ws c && headIs ws rest then collapseRuns ws rest
      else (if ws c then ' ' else c) :: collapseRuns ws rest := rfl

/-- Collapsing space runs commutes with dropping leading spaces. -/
theorem collapseRuns_dropWhile_comm (l : List Char) :
    collapseRuns spaceP (l.dropWhile spaceP) = (collapseRuns spaceP l).dropWhile spaceP := by
  induction l with
  | nil => rfl
  | cons c rest ih =>
    rw [List.dropWhile_cons]
    by_cases hc : spaceP c
    · rw [if_pos hc, ih, collapseRuns_cons]
      by_cases hh : spaceP c && headIs spaceP rest
      · rw [if_pos hh]
      · rw [if_neg hh]
        have hemit : (if spaceP c then ' ' else c) = ' ' := by rw [if_pos hc]
        rw [hemit, List.dropWhile_cons, if_pos (show spaceP ' ' = true from rfl)]
    · rw [if_neg hc]
      have hh : ¬((spaceP c && headIs spaceP rest) = true) := by
        intro h1
        rw [Bool.and_eq_true] at h1
        exact hc h1.1
      rw [collapseRuns_cons, if_neg hh, if_neg hc, List.dropWhile_cons, if_neg hc]

theorem endsIs_append_singleton (p : Char → Bool) (a : Char) (xs : List Char) :
    endsIs p (xs ++ [a]) = p a := by
  induction xs with
  | nil => rfl
  | cons c t ih =>
    cases t with
    | nil => rfl
    | cons d t2 =>
      simp only [List.cons_append] at ih ⊢
      simpa [endsIs] using ih

theorem endsIs_reverse (p : Char → Bool) (l : List Char) :
    endsIs p l.reverse = headIs p l := by
  cases l with
  | nil => rfl
  | cons c t =>
    rw [List.reverse_cons, endsIs_append_singleton]
    rfl

/-- Appending one character to the input either merges into the final run
or appends its replacement character to the output. -/
theorem collapseRuns_append_singleton (ws : Char → Bool) (a : Char) (xs : List Char) :
    collapseRuns ws (xs ++ [a]) =
      if endsIs ws xs && ws a then collapseRuns ws xs
      else collapseRuns ws xs ++ [if ws a then ' ' else a] := by
  induction xs with
  | nil => simp [collapseRuns, endsIs, headIs]
  | cons c t ih =>
    cases t with
    | nil =>
      by_cases h1 : ws c
      · by_cases h2 : ws a
        · simp [collapseRuns, headIs, endsIs, h1, h2]
        · simp [collapseRuns, headIs, endsIs, h1, h2]
      · by_cases h2 : ws a
        · simp [collapseRuns, headIs, endsIs, h1, h2]
        · simp [collapseRuns, headIs, endsIs, h1, h2]
    | cons d t2 =>
      simp only [List.cons_append] at ih ⊢
      rw [collapseRuns_cons ws c (d :: (t2 ++ [a])), collapseRuns_cons ws c (d :: t2)]
      have hhead : headIs ws (d :: (t2 ++ [a])) = headIs ws (d :: t2) := rfl
      have hends : endsIs ws (c :: d :: t2) = endsIs ws (d :: t2) := rfl
      rw [hhead, hends, ih]
      by_cases hcd : ws c && headIs ws (d :: t2)
      · by_cases hE : endsIs ws (d :: t2) && ws a
        · simp [hcd, hE]
        · simp [hcd, hE]
      · by_cases hE : endsIs ws (d :: t2) && ws a
        · simp [hcd, hE]
        · simp [hcd, hE]

/-- Collapsing runs is direction-symmetric. -/
theorem collapseRuns_reverse (ws : Char → Bool) (l : List Char) :
    collapseRuns ws l.reverse = (collapseRuns ws l).reverse := by
  induction l with
  | nil => rfl
  | cons c rest ih =>
    rw [List.reverse_cons, collapseRuns_append_singleton, endsIs_reverse, ih,
      collapseRuns_cons]
    by_cases hcond : ws c && headIs ws rest
    · have hcond2 : (headIs ws rest && ws c) = true := by
        rw [Bool.and_comm]; exact hcond
      rw [if_pos hcond2, if_pos hcond]
    · have hcond2 : ¬((headIs ws rest && ws c) = true) := by
        rw [Bool.and_comm]; exact hcond
      rw [if_neg hcond2, if_neg hcond, List.reverse_cons]

/-- The source's trim-then-collapse equals the spec's collapse-then-trim. -/
theorem collapseRuns_trimEnds_comm (l : List Char) :
    collapseRuns spaceP (trimEnds spaceP l) = trimEnds spaceP (collapseRuns spaceP l) := by
  unfold trimEnds
  rw [collapseRuns_reverse, collapseRuns_dropWhile_comm, collapseRuns_reverse,
    collapseRuns_dropWhile_comm]

/-! ### Invariants of the normalizer's output, and the claim theorems -/

theorem cleanChars_no_newline (l : List Char) : '\n' ∉ cleanChars l := by
  intro hmem
  unfold cleanChars at hmem
  rcases mem_collapseRuns _ _ _ hmem with h | h
  · exact absurd h (by decide)
  · have h2 := mem_trimEnds _ _ _ h
    rcases mem_joinSp _ _ h2 with h3 | ⟨m, hm, hxm⟩
    · exact absurd h3 (by decide)
    · rw [List.mem_map] at hm
      obtain ⟨m0, hm0, rfl⟩ := hm
      have h4 := mem_stripLineComment _ _ hxm
      exact (mem_splitOnChar '\n' l m0 hm0 '\n' h4).2 rfl

theorem cleanChars_noDD (l : List Char) : noDD (cleanChars l) := by
  unfold cleanChars
  apply collapseRuns_chain'
  apply trimEnds_chain'
  apply joinSp_chain'
  · intro m hm
    rw [List.mem_map] at hm
    obtain ⟨m0, _, rfl⟩ := hm
    exact stripLineComment_noDD m0
  · intro a h
    exact absurd h.2 (by decide)
  · intro b h
    exact absurd h.1 (by decide)

theorem cleanChars_noSS (l : List Char) : noSS (cleanChars l) :=
  collapseRuns_no_double_space _

theorem cleanChars_head (l : List Char) :
    ∀ y ∈ (cleanChars l).head?, spaceP y = false := by
  intro y hy
  unfold cleanChars at hy
  rw [collapseRuns_head?_space] at hy
  exact trimEnds_head? spaceP _ y hy

theorem cleanChars_last (l : List Char) :
    ∀ y ∈ (cleanChars l).getLast?, spaceP y = false := by
  intro y hy
  unfold cleanChars at hy
  rw [collapseRuns_getLast?_space] at hy
  exact trimEnds_getLast? spaceP _ y hy

/-- Any list already in normal form (no newline, no `--`, no double space,
no space at either end) is a fixed point of the normalizer body. -/
theorem cleanChars_eq_self_of_normalized (o : List Char)
    (h1 : '\n' ∉ o) (h2 : noDD o) (h3 : noSS o)
    (h4 : ∀ y ∈ o.head?, spaceP y = false)
    (h5 : ∀ y ∈ o.getLast?, spaceP y = false) :
    cleanChars o = o := by
  unfold cleanChars splitLines
  rw [splitOnChar_eq_single '\n' o h1, List.map_singleton,
    stripLineComment_eq_self o h2,
    show joinSp [o] = o from rfl,
    trimEnds_eq_self spaceP o h4 h5]
  exact collapseRuns_eq_self o h3

theorem cleanChars_idem (l : List Char) :
    cleanChars (cleanChars l) = cleanChars l :=
  cleanChars_eq_self_of_normalized (cleanChars l)
    (cleanChars_no_newline l) (cleanChars_noDD l) (cleanChars_noSS l)
    (cleanChars_head l) (cleanChars_last l)

/-- Claim C2: The normalizer body is pure by construction and idempotent:
normalizing an already-normalized string returns it unchanged. -/
theorem cleanQuery_idempotent (s : String) :
    CleanQuery (CleanQuery s) = CleanQuery s := by
  unfold CleanQuery
  rw [show (String.mk (cleanChars s.data)).data = cleanChars s.data from rfl,
    cleanChars_idem]

/-- Claim C1, counterexample: On a query containing a tab, the source's
normalizer differs from the spec's description: the claim's whitespace
collapse would produce `"a b"`, but `CleanQuery` touches only the space
character and returns `"a\tb"` unchanged. -/
theorem cleanQuery_whitespace_counterexample :
    CleanQuery "a\tb" = "a\tb" ∧ claimedNormalize "a\tb" = "a b" ∧
    CleanQuery "a\tb" ≠ claimedNormalize "a\tb" := by decide

/-- Claim C1, amended: `CleanQuery` strips the suffix from the first `--`
on each line, leaves block-comment markers untouched, rejoins lines with a
single space, collapses runs of interior *space characters* to one space
and trims leading/trailing *spaces* (equivalently in either stage order);
both quoted examples hold. -/
theorem cleanQuery_space_normalization :
    (∀ s : String, CleanQuery s = spaceNormalize s) ∧
    CleanQuery "SELECT 1 -- comment\n  FROM  dual" = "SELECT 1 FROM dual" ∧
    CleanQuery "SELECT /* keep */ 1" = "SELECT /* keep */ 1" := by
  refine ⟨?_, by decide, by decide⟩
  intro s
  unfold CleanQuery spaceNormalize cleanChars normalizeByWS
  rw [collapseRuns_trimEnds_comm]

end Dbbench
